import Mathlib

/-!
Shallow embedding of the data-handling code of the bAbI question-answering
notebook (`Workshop/sessions/16_QA.ipynb`): tokenizer, story parser,
`get_stories`, vectorizer, vocabulary construction, the download-failure
guard, and the vectorizing part of the interactive inference function,
together with theorems about them.

Python strings are embedded as lists of characters, Python exceptions as
`Option` (a raised exception is `none`), and printing as an explicitly
returned list of output lines.
-/

/-- Python strings are modelled as lists of characters. -/
abbrev Str := List Char

/-- Conversion from Lean string literals to the embedding of Python strings. -/
def str (s : String) : Str := s.data

/-- `Option`-valued map over a list: `none` as soon as one element fails
(the embedding of a Python loop or comprehension that may raise). -/
def mapO {α β : Type} (f : α → Option β) : List α → Option (List β)
  | [] => some []
  | a :: l => (f a).bind (fun b => (mapO f l).map (fun bs => b :: bs))

/-- `Option`-valued left fold: `none` as soon as one step fails. -/
def foldO {σ α : Type} (f : σ → α → Option σ) : σ → List α → Option σ
  | s, [] => some s
  | s, a :: l => (f s a).bind (fun s2 => foldO f s2 l)

/-- Python regex word character `\w` (Python 2 default, ASCII): `[A-Za-z0-9_]`. -/
def isWordChar (c : Char) : Bool := c.isAlpha || c.isDigit || c == '_'

/-- Python whitespace as recognised by `str.strip()` and `str.split()`. -/
def isPySpace (c : Char) : Bool :=
  c == ' ' || c == '\t' || c == '\n' || c == '\r' || c == '\x0b' || c == '\x0c'

/-- Python `s.strip()`: remove leading and trailing whitespace. -/
def stripChars (s : Str) : Str :=
  ((s.dropWhile isPySpace).reverse.dropWhile isPySpace).reverse

/-- Maximal runs of characters agreeing on the classifier `f`. -/
def runsBy (f : Char → Bool) : Str → List Str
  | [] => []
  | c :: cs =>
    match runsBy f cs with
    | [] => [[c]]
    | [] :: rs => [c] :: [] :: rs
    | (d :: r) :: rs =>
      if f c == f d then (c :: d :: r) :: rs else [c] :: (d :: r) :: rs

/-- `tokenize` from the notebook: in Python 2, `re.split('(\W+)?', sent)`
returns the word-character runs interleaved with the captured non-word runs
(zero-width matches are not split on); each fragment is `strip`ped and empty
fragments are discarded. -/
def tokenize (sent : Str) : List Str :=
  ((runsBy isWordChar sent).map stripChars).filter (fun t => !t.isEmpty)

/-- Python `s.split(sep, 1)` when `sep` occurs in `s`; `none` when it does
not (where the notebook's two-variable unpacking would raise `ValueError`). -/
def splitOnce (sep : Char) : Str → Option (Str × Str)
  | [] => none
  | c :: cs =>
    if c == sep then some ([], cs)
    else (splitOnce sep cs).map (fun p => (c :: p.1, p.2))

/-- Python `s.split(sep)`: split at every occurrence, keeping empty parts. -/
def splitAll (sep : Char) : Str → List Str
  | [] => [[]]
  | c :: cs =>
    if c == sep then [] :: splitAll sep cs
    else
      match splitAll sep cs with
      | [] => [[c]]
      | p :: ps => (c :: p) :: ps

/-- Python `s.split()` with no argument: split on whitespace runs, dropping
the empty fragments. -/
def pySplitWs (s : Str) : List Str :=
  (runsBy isPySpace s).filter (fun r =>
    match r with
    | [] => false
    | c :: _ => !isPySpace c)

/-- The value of a decimal digit character. -/
def digitVal (c : Char) : Option Nat :=
  if c.isDigit then some (c.toNat - '0'.toNat) else none

/-- Decimal digits to a number; `none` on empty input or a non-digit. -/
def parseDigits (s : Str) : Option Nat :=
  if s.isEmpty then none
  else s.foldl (fun acc c => acc.bind (fun a => (digitVal c).map (fun d => a * 10 + d)))
    (some 0)

/-- Python `int(s)`: strip whitespace, optional sign, decimal digits;
`none` where Python raises `ValueError`. -/
def pyInt (s : Str) : Option Int :=
  match stripChars s with
  | '-' :: rest => (parseDigits rest).map (fun n => -(n : Int))
  | '+' :: rest => (parseDigits rest).map (fun n => (n : Int))
  | t => (parseDigits t).map (fun n => (n : Int))

/-- Python sequence indexing `l[i]` with negative-index wraparound;
`none` where Python raises `IndexError`. -/
def pyIndex {α : Type} (l : List α) (i : Int) : Option α :=
  if 0 ≤ i then l.get? i.toNat
  else
    let j : Int := (l.length : Int) + i
    if 0 ≤ j then l.get? j.toNat else none

/-- An element of the running `story` buffer of `parse_stories`: a tokenized
sentence, or the empty string `''` appended after each question line. -/
inductive Entry : Type where
  | sent : List Str → Entry
  | blank : Entry
deriving DecidableEq

/-- Python truthiness of a story entry (both `''` and `[]` are falsy). -/
def Entry.truthy : Entry → Bool
  | .sent ts => !ts.isEmpty
  | .blank => false

/-- A `(substory, question, answer)` triple emitted by `parse_stories`. -/
abbrev Triple := List Entry × List Str × Str

/-- The loop state of `parse_stories`: emitted triples and the story buffer. -/
structure PState where
  data : List Triple
  story : List Entry
deriving DecidableEq

/-- One iteration of the `parse_stories` loop on a raw line. -/
def parseLine (only_supporting : Bool) (st : PState) (raw : Str) : Option PState := do
  let line := stripChars raw
  let (nidStr, rest) ← splitOnce ' ' line
  let nid ← pyInt nidStr
  let story := if nid == 1 then [] else st.story
  if rest.contains '\t' then
    match splitAll '\t' rest with
    | [q, a, supporting] =>
      let qt := tokenize q
      let substory ←
        if only_supporting then
          mapO (fun s => do
            let i ← pyInt s
            pyIndex story (i - 1)) (pySplitWs supporting)
        else
          pure (story.filter Entry.truthy)
      pure ⟨st.data ++ [(substory, qt, a)], story ++ [Entry.blank]⟩
    | _ => none
  else
    pure ⟨st.data, story ++ [Entry.sent (tokenize rest)]⟩

/-- `parse_stories` from the notebook (the lines are already decoded). -/
def parse_stories (lines : List Str) (only_supporting : Bool) : Option (List Triple) :=
  (foldO (parseLine only_supporting) ⟨[], []⟩ lines).map PState.data

/-- Python `+` on two story values (token list or `''`); mixing a list and a
string raises `TypeError`. -/
def entryAdd : Entry → Entry → Option Entry
  | .sent a, .sent b => some (.sent (a ++ b))
  | .blank, .blank => some .blank
  | _, _ => none

/-- The notebook's `flatten = lambda data: reduce(lambda x, y: x + y, data)`;
`reduce` over an empty sequence with no initial value raises `TypeError`. -/
def flatten : List Entry → Option Entry
  | [] => none
  | e :: es => foldO entryAdd e es

/-- Python `len` of a story value. -/
def entryLen : Entry → Nat
  | .sent l => l.length
  | .blank => 0

/-- One triple of the `get_stories` list comprehension: outer `none` models an
exception, inner `none` a triple dropped by the `max_length` filter. The
Python guard `not max_length` is true when `max_length` is `None` or `0`. -/
def keepTriple (max_length : Option Nat) (t : Triple) :
    Option (Option (Entry × List Str × Str)) :=
  match max_length with
  | some n =>
    if n = 0 then do
      let f ← flatten t.1
      pure (some (f, t.2.1, t.2.2))
    else do
      let f ← flatten t.1
      if entryLen f < n then pure (some (f, t.2.1, t.2.2)) else pure none
  | none => do
    let f ← flatten t.1
    pure (some (f, t.2.1, t.2.2))

/-- `get_stories` from the notebook, with reading the file abstracted to the
list of its lines. -/
def get_stories (lines : List Str) (only_supporting : Bool)
    (max_length : Option Nat) : Option (List (Entry × List Str × Str)) := do
  let data ← parse_stories lines only_supporting
  let opts ← mapO (keepTriple max_length) data
  pure (opts.filterMap id)

/-- Python dict lookup in an association list (`none` models `KeyError`). -/
def alookup (l : List (Str × Nat)) (k : Str) : Option Nat :=
  match l with
  | [] => none
  | p :: ps => if p.1 == k then some p.2 else alookup ps k

/-- `y = np.zeros(n); y[i] = 1` (an out-of-range index raises `IndexError`). -/
def oneHot (n i : Nat) : Option (List Nat) :=
  if i < n then some ((List.replicate n 0).set i 1) else none

/-- Keras `pad_sequences` on a single row with the default settings
`padding='pre'`, `truncating='pre'`, `value=0`: keep the last `maxlen`
entries and pad on the left with zeros up to `maxlen`. -/
def padSeq (maxlen : Nat) (s : List Nat) : List Nat :=
  let t := s.drop (s.length - maxlen)
  List.replicate (maxlen - t.length) 0 ++ t

/-- Keras `pad_sequences` with its default settings, as called by the
notebook. -/
def pad_sequences (xs : List (List Nat)) (maxlen : Nat) : List (List Nat) :=
  xs.map (padSeq maxlen)

/-- `vectorize_stories` from the notebook; the story component of each triple
is its flattened token list and `word_idx` is the vocabulary dictionary. -/
def vectorize_stories (data : List (List Str × List Str × Str))
    (word_idx : List (Str × Nat)) (story_maxlen query_maxlen : Nat) :
    Option (List (List Nat) × List (List Nat) × List (List Nat)) := do
  let rows ← mapO (fun t => do
    let x ← mapO (alookup word_idx) t.1
    let xq ← mapO (alookup word_idx) t.2.1
    let ai ← alookup word_idx t.2.2
    let y ← oneHot (word_idx.length + 1) ai
    pure (x, xq, y)) data
  pure (pad_sequences (rows.map (fun r => r.1)) story_maxlen,
        pad_sequences (rows.map (fun r => r.2.1)) query_maxlen,
        rows.map (fun r => r.2.2))

/-- All tokens of a dataset, as in `set(story + q + [answer])` unioned over
the triples. -/
def allToks (data : List (List Str × List Str × Str)) : List Str :=
  (data.map (fun t => t.1 ++ t.2.1 ++ [t.2.2])).join

/-- The notebook's `vocab = sorted(reduce(lambda x, y: x | y, ...))`: the
sorted list of the distinct tokens of the corpus; `reduce` with no initial
value raises `TypeError` on an empty corpus. -/
def vocabOf (data : List (List Str × List Str × Str)) : Option (List Str) :=
  if data.isEmpty then none
  else some (List.insertionSort (fun a b : Str => a ≤ b) (allToks data).dedup)

/-- The notebook's `word_idx = dict((c, i + 1) for i, c in enumerate(vocab))`. -/
def wordIdxOf (vocab : List Str) : List (Str × Nat) :=
  vocab.enum.map (fun p => (p.2, p.1 + 1))

/-- The manual-recovery instruction the notebook prints when the dataset
download fails. -/
def downloadMsg : Str :=
  str ("Error downloading dataset, please download it manually:\n$ wget http://www.thespermwhale.com/jaseweston/babi/tasks_1-20_v1-2.tar.gz\n$ mv tasks_1-20_v1-2.tar.gz ~/.keras/datasets/babi-tasks-v1-2.tar.gz")

/-- The notebook's `try: path = get_file(...)` / bare `except:` that prints
the recovery instruction and re-raises: the download outcome is abstracted
as an `Except` value and the printed lines are returned explicitly. -/
def downloadGuard {ε α : Type} (res : Except ε α) : List Str × Except ε α :=
  match res with
  | .ok p => ([], .ok p)
  | .error e => ([downloadMsg], .error e)

/-- The vectorizing part of `ask_qa` (the subsequent `model.predict_on_batch`
and printing are external library calls); `none` models the `KeyError`
raised by a token missing from `word_idx`. -/
def ask_qa_vec (word_idx : List (Str × Nat)) (story_maxlen query_maxlen : Nat)
    (story query : Str) : Option (List Nat × List Nat) := do
  let s ← mapO (alookup word_idx) (tokenize story)
  let q ← mapO (alookup word_idx) (tokenize query)
  pure (padSeq story_maxlen s, padSeq query_maxlen q)

/-- A structured view of one dataset line inside an episode: a narrative
sentence with its token list, or a question record with its tokenized
question, answer word and raw supporting-fact field. -/
inductive EpLine : Type where
  | sent : List Str → EpLine
  | quest : List Str → Str → Str → EpLine
deriving DecidableEq

/-- The story-buffer entry a line leaves behind: its tokenized sentence for a
narrative line, the `''` sentinel for a question line. -/
def entryOf : EpLine → Entry
  | .sent t => Entry.sent t
  | .quest _ _ _ => Entry.blank

/-- The story buffer after processing a list of lines of one episode. -/
def entriesOf (l : List EpLine) : List Entry := l.map entryOf

/-- The tokenized narrative sentences of a list of lines, in order. -/
def sentEntries (l : List EpLine) : List Entry :=
  l.filterMap (fun e =>
    match e with
    | .sent t => some (Entry.sent t)
    | .quest _ _ _ => none)

/-- The raw line `raw` is, to the parser, the narrative sentence numbered
`nid` with token list `t`: it splits at the first space into a number field
evaluating to `nid` and a remainder without a tab that tokenizes to `t`. -/
def isSentLine (raw : Str) (nid : Int) (t : List Str) : Bool :=
  match splitOnce ' ' (stripChars raw) with
  | some (ns, rest) =>
    pyInt ns == some nid && !rest.contains '\t' && tokenize rest == t
  | none => false

/-- The raw line `raw` is, to the parser, the question record numbered `nid`
with tokenized question `q`, answer `a` and raw supporting field `sup`. -/
def isQuestLine (raw : Str) (nid : Int) (q : List Str) (a sup : Str) : Bool :=
  match splitOnce ' ' (stripChars raw) with
  | some (ns, rest) =>
    pyInt ns == some nid && rest.contains '\t' &&
      (match splitAll '\t' rest with
       | [qs, a2, s2] => tokenize qs == q && a2 == a && s2 == sup
       | _ => false)
  | none => false

/-- The raw line decodes to the structured line, with line number `k + 1`. -/
def isLine (k : Nat) (raw : Str) : EpLine → Bool
  | .sent t => isSentLine raw ((k : Int) + 1) t
  | .quest q a sup => isQuestLine raw ((k : Int) + 1) q a sup

/-- The raw lines decode, one by one, to the structured episode lines, the
first one carrying line number `k + 1`. -/
def decodeFrom (k : Nat) : List Str → List EpLine → Bool
  | [], [] => true
  | raw :: raws, e :: es => isLine k raw e && decodeFrom (k + 1) raws es
  | _, _ => false

/-- The raw lines decode to the given episodes: each episode is a nonempty
block of consecutive lines numbered `1, 2, 3, ...` from its start. -/
def decodeLines : List Str → List (List EpLine) → Bool
  | ls, [] => ls.isEmpty
  | ls, e :: es =>
    !e.isEmpty && decodeFrom 0 (ls.take e.length) e &&
      decodeLines (ls.drop e.length) es

/-- The supporting-fact indices of a question record: `supporting.split()`
mapped through `int`. -/
def supIdxs (sup : Str) : Option (List Int) :=
  mapO pyInt (pySplitWs sup)

/-- The supporting field of a question asked after the prefix `pre` of its
episode is well formed: its indices parse, each index `i` satisfies
`1 ≤ i ≤ |pre|`, and line `i` of the episode is a narrative sentence. -/
def supCheck (pre : List EpLine) (sup : Str) : Bool :=
  match supIdxs sup with
  | some is =>
    is.all (fun i =>
      decide (1 ≤ i) && decide (i ≤ (pre.length : Int)) &&
        (match pre.get? (i.toNat - 1) with
         | some (.sent _) => true
         | _ => false))
  | none => false

/-- Every question of the episode suffix has a well-formed supporting field
(only consulted in `only_supporting` mode). -/
def okScan (os : Bool) (pre : List EpLine) : List EpLine → Bool
  | [] => true
  | .sent t :: es => okScan os (pre ++ [.sent t]) es
  | .quest q a s :: es =>
    (!os || supCheck pre s) && okScan os (pre ++ [.quest q a s]) es

/-- The substory a question with supporting field `s`, asked after the
episode prefix `pre`, receives: in `only_supporting` mode the sentences at
the listed line numbers (line `i` for index `i`), in order; otherwise all
narrative sentences of the prefix. -/
def storyFn (os : Bool) (pre : List EpLine) (s : Str) : List Entry :=
  if os then
    ((supIdxs s).getD []).map (fun i =>
      match pre.get? (i.toNat - 1) with
      | some (.sent t) => Entry.sent t
      | _ => Entry.blank)
  else sentEntries pre

/-- The triples the parser emits for the episode suffix `es` following the
already-processed prefix `pre`. -/
def emitFrom (os : Bool) (pre : List EpLine) : List EpLine → List Triple
  | [] => []
  | .sent t :: es => emitFrom os (pre ++ [.sent t]) es
  | .quest q a s :: es =>
    (storyFn os pre s, q, a) :: emitFrom os (pre ++ [.quest q a s]) es

/-- Expected triples of one episode in the default mode: one triple per
question line `j`, whose story is exactly the tokenized narrative sentences
at positions before `j`, i.e. with line numbers less than the question's. -/
def epTriplesFull (e : List EpLine) : List Triple :=
  (List.range e.length).filterMap (fun j =>
    match e.get? j with
    | some (.quest q a _) => some (sentEntries (e.take j), q, a)
    | _ => none)

/-- Expected triples of one episode in `only_supporting` mode: one triple per
question line, whose story is, for each supporting index `i` in the listed
order, the episode's sentence at line number `i`. -/
def epTriplesSup (e : List EpLine) : List Triple :=
  (List.range e.length).filterMap (fun j =>
    match e.get? j with
    | some (.quest q a s) =>
      some (((supIdxs s).getD []).map (fun i =>
        match (e.take j).get? (i.toNat - 1) with
        | some (.sent t) => Entry.sent t
        | _ => Entry.blank), q, a)
    | _ => none)

/-- Concrete raw dataset lines used in closed instantiations: two episodes
in the bAbI format. -/
def exLines : List Str :=
  [str ("1 Mary moved to the bathroom."),
   str ("2 John went to the hallway."),
   str ("3 Where is Mary?\tbathroom\t1"),
   str ("1 Daniel went back to the garden."),
   str ("2 Where is Daniel?\tgarden\t1")]

/-- The structured decoding of `exLines`. -/
def exEpisodes : List (List EpLine) :=
  [[EpLine.sent [str ("Mary"), str ("moved"), str ("to"), str ("the"),
      str ("bathroom"), str (".")],
    EpLine.sent [str ("John"), str ("went"), str ("to"), str ("the"),
      str ("hallway"), str (".")],
    EpLine.quest [str ("Where"), str ("is"), str ("Mary"), str ("?")]
      (str ("bathroom")) (str ("1"))],
   [EpLine.sent [str ("Daniel"), str ("went"), str ("back"), str ("to"),
      str ("the"), str ("garden"), str (".")],
    EpLine.quest [str ("Where"), str ("is"), str ("Daniel"), str ("?")]
      (str ("garden")) (str ("1"))]]

/-- Concrete lines whose single story has exactly four tokens. -/
def exLines9 : List Str :=
  [str ("1 John went home."), str ("2 Where is John?\thome\t1")]

/-- The parse of `exLines9`. -/
def exData9 : List Triple :=
  [([Entry.sent [str ("John"), str ("went"), str ("home"), str (".")]],
    [str ("Where"), str ("is"), str ("John"), str ("?")], str ("home"))]

/-- A concrete vectorizer input: one triple over a two-word vocabulary. -/
def exData45 : List (List Str × List Str × Str) :=
  [([str ("apple")], [str ("where")], str ("apple"))]

/-- A concrete vocabulary dictionary. -/
def exWordIdx : List (Str × Nat) := [(str ("apple"), 1), (str ("where"), 2)]

/-- A one-entry vocabulary missing the token `John`. -/
def exWordIdxSmall : List (Str × Nat) := [(str ("Where"), 1)]

/-- A concrete one-triple corpus for the vocabulary construction. -/
def exData6 : List (List Str × List Str × Str) :=
  [([str ("b")], [str ("a")], str ("b"))]

lemma head_dropWhile_false {p : Char → Bool} :
    ∀ {l : Str} {c : Char}, (l.dropWhile p).head? = some c → p c = false := by
  intro l
  induction l with
  | nil => intro c h; simp [List.dropWhile] at h
  | cons a l ih =>
    intro c h
    rw [List.dropWhile_cons] at h
    by_cases hp : p a
    · simp [hp] at h; exact ih h
    · simp [hp] at h
      subst h
      exact Bool.of_not_eq_true hp

lemma stripChars_reverse_head {s : Str} {c : Char}
    (h : (stripChars s).reverse.head? = some c) : isPySpace c = false := by
  unfold stripChars at h
  rw [List.reverse_reverse] at h
  exact head_dropWhile_false h

lemma stripChars_eq_nil_all {s : Str} (h : stripChars s = []) :
    ∀ c ∈ s, isPySpace c = true := by
  unfold stripChars at h
  rw [List.reverse_eq_nil_iff, List.dropWhile_eq_nil_iff] at h
  intro c hc
  rcases List.mem_append.1 ((List.takeWhile_append_dropWhile isPySpace s) ▸ hc)
    with h1 | h1
  · exact List.mem_takeWhile_imp h1
  · exact h c (List.mem_reverse.2 h1)

lemma runsBy_flatten (f : Char → Bool) : ∀ l : Str, (runsBy f l).flatten = l := by
  intro l
  induction l with
  | nil => rfl
  | cons c cs ih =>
    rw [runsBy]
    rcases h : runsBy f cs with _ | ⟨r, rs⟩
    · rw [h] at ih
      simp only [List.flatten_nil] at ih
      dsimp only
      simp [← ih]
    · rw [h] at ih
      cases r with
      | nil =>
        simp only [List.flatten_cons, List.nil_append] at ih
        dsimp only
        simp [List.flatten_cons, ih]
      | cons d r' =>
        simp only [List.flatten_cons] at ih
        dsimp only
        by_cases hf : f c == f d
        · rw [if_pos hf]
          rw [List.flatten_cons, List.cons_append, ih]
        · rw [if_neg hf]
          rw [List.flatten_cons, List.flatten_cons, List.singleton_append,
            List.cons_append]
          exact congrArg (List.cons c) ih

lemma tokenize_eq_nil_all {s : Str} (h : tokenize s = []) :
    ∀ c ∈ s, isPySpace c = true := by
  unfold tokenize at h
  rw [List.filter_eq_nil] at h
  intro c hc
  have hc' : c ∈ (runsBy isWordChar s).flatten := by
    rw [runsBy_flatten]; exact hc
  rcases List.mem_flatten.1 hc' with ⟨r, hr, hcr⟩
  have hmap : stripChars r ∈ (runsBy isWordChar s).map stripChars :=
    List.mem_map_of_mem stripChars hr
  have := h _ hmap
  have hnil : stripChars r = [] := by
    by_contra hne
    exact this (by simpa [List.isEmpty_iff] using hne)
  exact stripChars_eq_nil_all hnil c hcr

lemma splitOnce_append {sep : Char} :
    ∀ {s a b : Str}, splitOnce sep s = some (a, b) → s = a ++ sep :: b := by
  intro s
  induction s with
  | nil => intro a b h; simp [splitOnce] at h
  | cons c cs ih =>
    intro a b h
    rw [splitOnce] at h
    by_cases hc : c == sep
    · simp [hc] at h
      obtain ⟨ha, hb⟩ := h
      subst ha; subst hb
      simp [eq_of_beq hc]
    · simp only [hc, if_neg, Bool.false_eq_true, not_false_eq_true] at h
      rcases hsp : splitOnce sep cs with _ | ⟨a', b'⟩
      · rw [hsp] at h; simp at h
      · rw [hsp] at h
        simp at h
        obtain ⟨ha, hb⟩ := h
        subst hb
        rw [← ha]
        simpa using congrArg (c :: ·) (ih hsp)

lemma isSentLine_tokens_ne_nil {raw : Str} {nid : Int} {t : List Str}
    (h : isSentLine raw nid t = true) : t ≠ [] := by
  unfold isSentLine at h
  rcases hsp : splitOnce ' ' (stripChars raw) with _ | ⟨ns, rest⟩
  · rw [hsp] at h; simp at h
  · rw [hsp] at h
    simp only [Bool.and_eq_true, beq_iff_eq] at h
    obtain ⟨⟨-, -⟩, ht⟩ := h
    intro hnil
    have htok : tokenize rest = [] := by rw [ht]; exact hnil
    have happ : stripChars raw = ns ++ ' ' :: rest := splitOnce_append hsp
    have hrev : (stripChars raw).reverse = rest.reverse ++ ' ' :: ns.reverse := by
      rw [happ]; simp
    rcases hr : rest.reverse with _ | ⟨c, cr⟩
    · have : (stripChars raw).reverse.head? = some ' ' := by
        rw [hrev, hr]; simp
      have := stripChars_reverse_head this
      simp [isPySpace] at this
    · have hhead : (stripChars raw).reverse.head? = some c := by
        rw [hrev, hr]; simp
      have h1 := stripChars_reverse_head hhead
      have hcrest : c ∈ rest := by
        rw [← List.mem_reverse, hr]; exact List.mem_cons_self c cr
      have h2 := tokenize_eq_nil_all htok c hcrest
      rw [h1] at h2
      exact Bool.false_ne_true h2

lemma foldO_append {σ α : Type} (f : σ → α → Option σ) :
    ∀ (l₁ l₂ : List α) (s : σ),
      foldO f s (l₁ ++ l₂) = (foldO f s l₁).bind (fun s2 => foldO f s2 l₂) := by
  intro l₁
  induction l₁ with
  | nil => intro l₂ s; simp [foldO]
  | cons a l ih =>
    intro l₂ s
    rcases hfa : f s a with _ | s2
    · simp [foldO, hfa]
    · simp [foldO, hfa, ih]

lemma mapO_none {α β : Type} (f : α → Option β) :
    ∀ {l : List α} {x : α}, x ∈ l → f x = none → mapO f l = none := by
  intro l
  induction l with
  | nil => intro x h _; simp at h
  | cons a l ih =>
    intro x hx hfx
    rcases List.mem_cons.1 hx with h | h
    · subst h; simp [mapO, hfx]
    · rcases hfa : f a with _ | b
      · simp [mapO, hfa]
      · simp [mapO, hfa, ih h hfx]

lemma mapO_map {α β : Type} (f : α → Option β) (g : α → β) :
    ∀ {l : List α}, (∀ x ∈ l, f x = some (g x)) → mapO f l = some (l.map g) := by
  intro l
  induction l with
  | nil => intro _; rfl
  | cons a l ih =>
    intro h
    simp [mapO, h a (List.mem_cons_self a l),
      ih (fun x hx => h x (List.mem_cons_of_mem a hx))]

lemma mapO_get {α β : Type} (f : α → Option β) :
    ∀ {l : List α} {rs : List β}, mapO f l = some rs →
      rs.length = l.length ∧
        ∀ i a, l.get? i = some a → ∃ b, f a = some b ∧ rs.get? i = some b := by
  intro l
  induction l with
  | nil =>
    intro rs h
    simp only [mapO, Option.some_inj] at h
    subst h
    exact ⟨rfl, by intro i a h; simp at h⟩
  | cons a l ih =>
    intro rs h
    rcases hfa : f a with _ | b
    · simp [mapO, hfa] at h
    · rcases hml : mapO f l with _ | bs
      · simp [mapO, hfa, hml] at h
      · simp only [mapO, hfa, hml, Option.some_bind, Option.map_some',
          Option.some_inj] at h
        subst h
        obtain ⟨hlen, hget⟩ := ih hml
        refine ⟨by simp [hlen], ?_⟩
        intro i x hx
        cases i with
        | zero =>
          simp only [List.get?_cons_zero, Option.some_inj] at hx
          subst hx
          exact ⟨b, hfa, rfl⟩
        | succ j =>
          simp only [List.get?_cons_succ] at hx ⊢
          exact hget j x hx

lemma mapO_bind_map {α β γ : Type} (f : α → Option β) (g : β → Option γ)
    (h : β → γ) :
    ∀ {l : List α} {bs : List β}, mapO f l = some bs →
      (∀ b ∈ bs, g b = some (h b)) →
      mapO (fun a => (f a).bind g) l = some (bs.map h) := by
  intro l
  induction l with
  | nil =>
    intro bs hf _
    simp only [mapO, Option.some_inj] at hf
    subst hf
    rfl
  | cons a l ih =>
    intro bs hf hg
    rcases hfa : f a with _ | b
    · simp [mapO, hfa] at hf
    · rcases hml : mapO f l with _ | bs2
      · simp [mapO, hfa, hml] at hf
      · simp only [mapO, hfa, hml, Option.some_bind, Option.map_some',
          Option.some_inj] at hf
        subst hf
        have hgb := hg b (List.mem_cons_self b bs2)
        have hrec := ih hml (fun x hx => hg x (List.mem_cons_of_mem b hx))
        simp [mapO, hfa, hgb, hrec]

lemma parseLine_sent {os : Bool} {st : PState} {raw : Str} {nid : Int}
    {t : List Str} (h : isSentLine raw nid t = true) :
    parseLine os st raw =
      some ⟨st.data, (if nid == 1 then [] else st.story) ++ [Entry.sent t]⟩ := by
  unfold isSentLine at h
  rcases hsp : splitOnce ' ' (stripChars raw) with _ | ⟨ns, rest⟩
  · rw [hsp] at h; simp at h
  · rw [hsp] at h
    simp only [Bool.and_eq_true, beq_iff_eq, Bool.not_eq_true'] at h
    obtain ⟨⟨h1, h2⟩, h3⟩ := h
    simp only [List.contains, List.elem_eq_mem, decide_eq_false_iff_not] at h2
    simp [parseLine, hsp, h1, h2, h3]

lemma parseLine_quest_full {st : PState} {raw : Str} {nid : Int} {q : List Str}
    {a sup : Str} (h : isQuestLine raw nid q a sup = true) :
    parseLine false st raw =
      some ⟨st.data ++
              [((if nid == 1 then [] else st.story).filter Entry.truthy, q, a)],
            (if nid == 1 then [] else st.story) ++ [Entry.blank]⟩ := by
  unfold isQuestLine at h
  rcases hsp : splitOnce ' ' (stripChars raw) with _ | ⟨ns, rest⟩
  · rw [hsp] at h; simp at h
  · rw [hsp] at h
    simp only [Bool.and_eq_true, beq_iff_eq] at h
    obtain ⟨⟨h1, h2⟩, h3⟩ := h
    have h2m : '\t' ∈ rest := by
      simpa only [List.contains, List.elem_eq_mem, decide_eq_true_eq] using h2
    rcases hta : splitAll '\t' rest with _ | ⟨qs, l1⟩
    · rw [hta] at h3; simp at h3
    rcases l1 with _ | ⟨a2, l2⟩
    · rw [hta] at h3; simp at h3
    rcases l2 with _ | ⟨s2, l3⟩
    · rw [hta] at h3; simp at h3
    rcases l3 with _ | ⟨x, xs⟩
    case cons => rw [hta] at h3; simp at h3
    rw [hta] at h3
    simp only [Bool.and_eq_true, beq_iff_eq] at h3
    obtain ⟨⟨hq, ha⟩, hs⟩ := h3
    subst hq; subst ha; subst hs
    simp [parseLine, hsp, h1, h2m, hta]

lemma parseLine_quest_sup {st : PState} {raw : Str} {nid : Int} {q : List Str}
    {a sup : Str} (h : isQuestLine raw nid q a sup = true) :
    parseLine true st raw =
      (mapO (fun s => (pyInt s).bind (fun i =>
          pyIndex (if nid == 1 then [] else st.story) (i - 1))) (pySplitWs sup)).bind
        (fun sub => some ⟨st.data ++ [(sub, q, a)],
          (if nid == 1 then [] else st.story) ++ [Entry.blank]⟩) := by
  unfold isQuestLine at h
  rcases hsp : splitOnce ' ' (stripChars raw) with _ | ⟨ns, rest⟩
  · rw [hsp] at h; simp at h
  · rw [hsp] at h
    simp only [Bool.and_eq_true, beq_iff_eq] at h
    obtain ⟨⟨h1, h2⟩, h3⟩ := h
    have h2m : '\t' ∈ rest := by
      simpa only [List.contains, List.elem_eq_mem, decide_eq_true_eq] using h2
    rcases hta : splitAll '\t' rest with _ | ⟨qs, l1⟩
    · rw [hta] at h3; simp at h3
    rcases l1 with _ | ⟨a2, l2⟩
    · rw [hta] at h3; simp at h3
    rcases l2 with _ | ⟨s2, l3⟩
    · rw [hta] at h3; simp at h3
    rcases l3 with _ | ⟨x, xs⟩
    case cons => rw [hta] at h3; simp at h3
    rw [hta] at h3
    simp only [Bool.and_eq_true, beq_iff_eq] at h3
    obtain ⟨⟨hq, ha⟩, hs⟩ := h3
    subst hq; subst ha; subst hs
    simp [parseLine, hsp, h1, h2m, hta]

lemma entriesOf_append (l1 l2 : List EpLine) :
    entriesOf (l1 ++ l2) = entriesOf l1 ++ entriesOf l2 := by
  simp [entriesOf]

lemma entriesOf_cons (e : EpLine) (es : List EpLine) :
    entriesOf (e :: es) = entryOf e :: entriesOf es := rfl

lemma sentEntries_cons_sent (t : List Str) (es : List EpLine) :
    sentEntries (EpLine.sent t :: es) = Entry.sent t :: sentEntries es := rfl

lemma sentEntries_cons_quest (q : List Str) (a s : Str) (es : List EpLine) :
    sentEntries (EpLine.quest q a s :: es) = sentEntries es := rfl

lemma filter_truthy_entriesOf :
    ∀ {pre : List EpLine}, (∀ t, EpLine.sent t ∈ pre → t ≠ []) →
      (entriesOf pre).filter Entry.truthy = sentEntries pre := by
  intro pre
  induction pre with
  | nil => intro _; rfl
  | cons e es ih =>
    intro h
    have ih2 := ih (fun t2 ht2 => h t2 (List.mem_cons_of_mem _ ht2))
    cases e with
    | sent t =>
      have ht : t ≠ [] := h t (List.mem_cons_self _ _)
      have htr : Entry.truthy (Entry.sent t) = true := by
        simp [Entry.truthy, List.isEmpty_iff, ht]
      rw [entriesOf_cons, List.filter_cons, sentEntries_cons_sent]
      simp [entryOf, htr, ih2]
    | quest q a s =>
      rw [entriesOf_cons, List.filter_cons, sentEntries_cons_quest]
      simp [entryOf, Entry.truthy, ih2]

lemma supCheck_elim {pre : List EpLine} {s : Str} (h : supCheck pre s = true) :
    ∃ is, supIdxs s = some is ∧
      ∀ i ∈ is, (1 ≤ i ∧ i ≤ (pre.length : Int)) ∧
        ∃ t2, pre.get? (i.toNat - 1) = some (EpLine.sent t2) := by
  unfold supCheck at h
  rcases hs : supIdxs s with _ | is
  · rw [hs] at h; simp at h
  · rw [hs] at h
    refine ⟨is, rfl, ?_⟩
    intro i hi
    have := (List.all_eq_true.1 h) i hi
    simp only [Bool.and_eq_true, decide_eq_true_eq] at this
    obtain ⟨⟨hi1, hi2⟩, hm⟩ := this
    refine ⟨⟨hi1, hi2⟩, ?_⟩
    rcases hg : pre.get? (i.toNat - 1) with _ | e2
    · rw [hg] at hm; simp at hm
    · rw [hg] at hm
      cases e2 with
      | sent t2 => exact ⟨t2, rfl⟩
      | quest q2 a2 s2 => simp at hm

lemma supCheck_mapO {pre : List EpLine} {s : Str} {is : List Int}
    (hsup : supIdxs s = some is)
    (hall : ∀ i ∈ is, (1 ≤ i ∧ i ≤ (pre.length : Int)) ∧
        ∃ t2, pre.get? (i.toNat - 1) = some (EpLine.sent t2)) :
    mapO (fun s2 => (pyInt s2).bind (fun i => pyIndex (entriesOf pre) (i - 1)))
      (pySplitWs s) =
      some (is.map (fun i =>
        match pre.get? (i.toNat - 1) with
        | some (.sent t) => Entry.sent t
        | _ => Entry.blank)) := by
  refine mapO_bind_map pyInt (fun i => pyIndex (entriesOf pre) (i - 1)) _ hsup ?_
  intro i hi
  obtain ⟨⟨hi1, hi2⟩, t2, hg⟩ := hall i hi
  have h0 : (0 : Int) ≤ i - 1 := by omega
  have htn : (i - 1).toNat = i.toNat - 1 := by omega
  simp only [pyIndex]
  rw [if_pos h0, htn]
  have : (entriesOf pre).get? (i.toNat - 1) = (pre.get? (i.toNat - 1)).map entryOf := by
    simp [entriesOf]
  rw [this, hg]
  simp [entryOf]

lemma okScan_false : ∀ (es pre : List EpLine), okScan false pre es = true := by
  intro es
  induction es with
  | nil => intro pre; rfl
  | cons e es ih =>
    intro pre
    cases e with
    | sent t => exact ih (pre ++ [.sent t])
    | quest q a sp => simp [okScan, ih]

lemma foldEp (os : Bool) :
    ∀ (rest : List EpLine) (raws : List Str) (pre : List EpLine) (d : List Triple),
      pre ≠ [] →
      (∀ t, EpLine.sent t ∈ pre → t ≠ []) →
      decodeFrom pre.length raws rest = true →
      okScan os pre rest = true →
      foldO (parseLine os) ⟨d, entriesOf pre⟩ raws =
        some ⟨d ++ emitFrom os pre rest, entriesOf (pre ++ rest)⟩ := by
  intro rest
  induction rest with
  | nil =>
    intro raws pre d hpre hgood hdec hok
    cases raws with
    | nil => simp [foldO, emitFrom]
    | cons r rs => simp [decodeFrom] at hdec
  | cons e es ih =>
    intro raws pre d hpre hgood hdec hok
    cases raws with
    | nil => simp [decodeFrom] at hdec
    | cons raw raws2 =>
      rw [decodeFrom] at hdec
      simp only [Bool.and_eq_true] at hdec
      obtain ⟨hline, hdec2⟩ := hdec
      have hlen1 : 0 < pre.length := List.length_pos.2 hpre
      have hnid : (((pre.length : Int) + 1) == 1) = false := by
        simp only [beq_eq_false_iff_ne, ne_eq]
        omega
      cases e with
      | sent t =>
        have hs : isSentLine raw ((pre.length : Int) + 1) t = true := hline
        have ht := isSentLine_tokens_ne_nil hs
        rw [foldO, parseLine_sent hs]
        simp only [hnid, Bool.false_eq_true, if_false, Option.some_bind]
        have hst : entriesOf pre ++ [Entry.sent t] = entriesOf (pre ++ [EpLine.sent t]) := by
          rw [entriesOf_append]; rfl
        rw [hst]
        have hgood2 : ∀ t2, EpLine.sent t2 ∈ pre ++ [EpLine.sent t] → t2 ≠ [] := by
          intro t2 ht2
          rcases List.mem_append.1 ht2 with h | h
          · exact hgood t2 h
          · simp only [List.mem_singleton, EpLine.sent.injEq] at h
            subst h
            exact ht
        have hdec2' : decodeFrom (pre ++ [EpLine.sent t]).length raws2 es = true := by
          simpa [List.length_append] using hdec2
        have hrec := ih raws2 (pre ++ [EpLine.sent t]) d (by simp) hgood2 hdec2' hok
        rw [hrec]
        simp [emitFrom, List.append_assoc]
      | quest q a sp =>
        have hql : isQuestLine raw ((pre.length : Int) + 1) q a sp = true := hline
        simp only [okScan, Bool.and_eq_true] at hok
        obtain ⟨hsup0, hok2⟩ := hok
        have hgood2 : ∀ t2, EpLine.sent t2 ∈ pre ++ [EpLine.quest q a sp] → t2 ≠ [] := by
          intro t2 ht2
          rcases List.mem_append.1 ht2 with h | h
          · exact hgood t2 h
          · simp at h
        have hdec2' : decodeFrom (pre ++ [EpLine.quest q a sp]).length raws2 es = true := by
          simpa [List.length_append] using hdec2
        have hst : entriesOf pre ++ [Entry.blank] = entriesOf (pre ++ [EpLine.quest q a sp]) := by
          rw [entriesOf_append]; rfl
        cases os with
        | false =>
          rw [foldO, parseLine_quest_full hql]
          simp only [hnid, Bool.false_eq_true, if_false, Option.some_bind]
          rw [filter_truthy_entriesOf hgood, hst]
          have hrec := ih raws2 (pre ++ [EpLine.quest q a sp])
            (d ++ [(sentEntries pre, q, a)]) (by simp) hgood2 hdec2' hok2
          rw [hrec]
          simp [emitFrom, storyFn, List.append_assoc]
        | true =>
          simp only [Bool.not_true, Bool.false_or] at hsup0
          obtain ⟨is, hsup, hall⟩ := supCheck_elim hsup0
          rw [foldO, parseLine_quest_sup hql]
          simp only [hnid, Bool.false_eq_true, if_false]
          rw [supCheck_mapO hsup hall]
          simp only [Option.some_bind]
          rw [hst]
          have hrec := ih raws2 (pre ++ [EpLine.quest q a sp])
            (d ++ [(is.map (fun i =>
              match pre.get? (i.toNat - 1) with
              | some (.sent t) => Entry.sent t
              | _ => Entry.blank), q, a)]) (by simp) hgood2 hdec2' hok2
          rw [hrec]
          simp [emitFrom, storyFn, hsup, List.append_assoc]

lemma foldEpStart (os : Bool) :
    ∀ (e : List EpLine) (raws : List Str) (d : List Triple) (s0 : List Entry),
      e ≠ [] → decodeFrom 0 raws e = true → okScan os [] e = true →
      foldO (parseLine os) ⟨d, s0⟩ raws =
        some ⟨d ++ emitFrom os [] e, entriesOf e⟩ := by
  intro e raws d s0 hne hdec hok
  cases e with
  | nil => exact absurd rfl hne
  | cons e0 es =>
    cases raws with
    | nil => simp [decodeFrom] at hdec
    | cons raw raws2 =>
      rw [decodeFrom] at hdec
      simp only [Bool.and_eq_true] at hdec
      obtain ⟨hline, hdec2⟩ := hdec
      cases e0 with
      | sent t =>
        have hs : isSentLine raw (((0 : Nat) : Int) + 1) t = true := hline
        have ht := isSentLine_tokens_ne_nil hs
        rw [foldO, parseLine_sent hs]
        have h1 : ((((0 : Nat) : Int) + 1) == 1) = true := by decide
        simp only [h1, if_true, Option.some_bind, List.nil_append]
        have hrec := foldEp os es raws2 [EpLine.sent t] d (by simp)
          (by
            intro t2 ht2
            simp only [List.mem_singleton, EpLine.sent.injEq] at ht2
            subst ht2
            exact ht)
          (by simpa using hdec2) hok
        simpa [entriesOf, entryOf] using hrec
      | quest q a sp =>
        have hql : isQuestLine raw (((0 : Nat) : Int) + 1) q a sp = true := hline
        have h1 : ((((0 : Nat) : Int) + 1) == 1) = true := by decide
        simp only [okScan, Bool.and_eq_true] at hok
        obtain ⟨hsup0, hok2⟩ := hok
        cases os with
        | false =>
          rw [foldO, parseLine_quest_full hql]
          simp only [h1, if_true, Option.some_bind, List.filter_nil]
          have hrec := foldEp false es raws2 [EpLine.quest q a sp]
            (d ++ [([], q, a)]) (by simp)
            (by intro t2 ht2; simp at ht2)
            (by simpa using hdec2) hok2
          simpa [entriesOf, entryOf, emitFrom, storyFn, sentEntries,
            List.append_assoc] using hrec
        | true =>
          simp only [Bool.not_true, Bool.false_or] at hsup0
          obtain ⟨is, hsup, hall⟩ := supCheck_elim hsup0
          rw [foldO, parseLine_quest_sup hql]
          simp only [h1, if_true]
          have hmap := @supCheck_mapO [] sp is hsup (by simpa using hall)
          simp only [entriesOf, List.map_nil] at hmap
          rw [hmap]
          simp only [Option.some_bind]
          have hrec := foldEp true es raws2 [EpLine.quest q a sp]
            (d ++ [(is.map (fun i =>
              match ([] : List EpLine).get? (i.toNat - 1) with
              | some (.sent t) => Entry.sent t
              | _ => Entry.blank), q, a)]) (by simp)
            (by intro t2 ht2; simp at ht2)
            (by simpa using hdec2) hok2
          simpa [entriesOf, entryOf, emitFrom, storyFn, hsup,
            List.append_assoc] using hrec

lemma foldAll (os : Bool) :
    ∀ (eps : List (List EpLine)) (lines : List Str) (d : List Triple)
      (s0 : List Entry),
      decodeLines lines eps = true →
      (eps.all (fun e => okScan os [] e)) = true →
      ∃ fs, foldO (parseLine os) ⟨d, s0⟩ lines =
        some ⟨d ++ (eps.map (emitFrom os [])).flatten, fs⟩ := by
  intro eps
  induction eps with
  | nil =>
    intro lines d s0 hdec _
    simp only [decodeLines, List.isEmpty_iff] at hdec
    subst hdec
    exact ⟨s0, by simp [foldO]⟩
  | cons e es ih =>
    intro lines d s0 hdec hall
    simp only [decodeLines, Bool.and_eq_true] at hdec
    obtain ⟨⟨hne, hdec1⟩, hdec2⟩ := hdec
    simp only [List.all_cons, Bool.and_eq_true] at hall
    obtain ⟨hok1, hall2⟩ := hall
    have hne' : e ≠ [] := by
      simpa [List.isEmpty_iff] using hne
    rw [← List.take_append_drop e.length lines, foldO_append]
    rw [foldEpStart os e (lines.take e.length) d s0 hne' hdec1 hok1]
    simp only [Option.some_bind]
    obtain ⟨fs, hrec⟩ := ih (lines.drop e.length) (d ++ emitFrom os [] e)
      (entriesOf e) hdec2 hall2
    refine ⟨fs, ?_⟩
    rw [hrec]
    simp [List.append_assoc]

lemma emitFrom_eq_filterMap (os : Bool) :
    ∀ (es pre : List EpLine),
      emitFrom os pre es = (List.range es.length).filterMap (fun j =>
        match es.get? j with
        | some (.quest q a sp) => some (storyFn os (pre ++ es.take j) sp, q, a)
        | _ => none) := by
  intro es
  induction es with
  | nil => intro pre; rfl
  | cons e es ih =>
    intro pre
    rw [List.length_cons, List.range_succ_eq_map, List.filterMap_cons,
      List.filterMap_map]
    cases e with
    | sent t =>
      simp only [List.get?_cons_zero]
      rw [show emitFrom os pre (EpLine.sent t :: es) =
        emitFrom os (pre ++ [EpLine.sent t]) es from rfl]
      rw [ih (pre ++ [EpLine.sent t])]
      refine congrArg (fun f => List.filterMap f (List.range es.length)) ?_
      funext j
      simp only [Function.comp_apply, List.get?_cons_succ, List.take_succ_cons]
      rcases hj : es.get? j with _ | e2
      · rfl
      · cases e2 <;> simp [List.append_assoc]
    | quest q a sp =>
      simp only [List.get?_cons_zero, List.take_zero, List.append_nil]
      rw [show emitFrom os pre (EpLine.quest q a sp :: es) =
        (storyFn os pre sp, q, a) :: emitFrom os (pre ++ [EpLine.quest q a sp]) es
        from rfl]
      rw [ih (pre ++ [EpLine.quest q a sp])]
      refine congrArg₂ List.cons rfl ?_
      refine congrArg (fun f => List.filterMap f (List.range es.length)) ?_
      funext j
      simp only [Function.comp_apply, List.get?_cons_succ, List.take_succ_cons]
      rcases hj : es.get? j with _ | e2
      · rfl
      · cases e2 <;> simp [List.append_assoc]

lemma emitFrom_nil_full (e : List EpLine) :
    emitFrom false [] e = epTriplesFull e := by
  rw [emitFrom_eq_filterMap]
  unfold epTriplesFull
  refine congrArg (fun f => List.filterMap f (List.range e.length)) ?_
  funext j
  rcases hj : e.get? j with _ | e2
  · rfl
  · cases e2 <;> simp [storyFn]

lemma emitFrom_nil_sup (e : List EpLine) :
    emitFrom true [] e = epTriplesSup e := by
  rw [emitFrom_eq_filterMap]
  unfold epTriplesSup
  refine congrArg (fun f => List.filterMap f (List.range e.length)) ?_
  funext j
  rcases hj : e.get? j with _ | e2
  · rfl
  · cases e2 <;> simp [storyFn]

/-- C1: `tokenize` splits a sentence into word and punctuation tokens
(a regular-expression split on non-word-character runs) and discards
empty or whitespace-only fragments; on the docstring example it returns
exactly `['Bob','dropped','the','apple','.','Where','is','the','apple','?']`,
and no output token is ever empty. -/
theorem tokenize_spec :
    tokenize (str ("Bob dropped the apple. Where is the apple?")) =
      [str ("Bob"), str ("dropped"), str ("the"), str ("apple"), str ("."),
       str ("Where"), str ("is"), str ("the"), str ("apple"), str ("?")] ∧
    ∀ sent : Str, ((tokenize sent).all (fun t => !t.isEmpty)) = true := by
  refine ⟨by decide, ?_⟩
  intro sent
  refine List.all_eq_true.2 ?_
  intro t ht
  exact (List.mem_filter.1 ht).2

/-- C2: with `only_supporting = False`, every triple `parse_stories` emits
carries as its story exactly the tokenized narrative sentences of the
current episode at positions before the question, i.e. with line numbers
less than the question's line number: the buffer is reset at each line
numbered 1, and question lines contribute no sentence to later stories. -/
theorem parse_stories_full_story (lines : List Str)
    (episodes : List (List EpLine)) (hdec : decodeLines lines episodes = true) :
    parse_stories lines false = some ((episodes.map epTriplesFull).flatten) := by
  have hall : (episodes.all (fun e => okScan false [] e)) = true := by
    refine List.all_eq_true.2 ?_
    intro e _
    exact okScan_false e []
  obtain ⟨fs, hfold⟩ := foldAll false episodes lines [] [] hdec hall
  unfold parse_stories
  rw [hfold]
  simp only [Option.map_some', List.nil_append]
  rw [show emitFrom false [] = epTriplesFull from funext emitFrom_nil_full]

/-- Closed instantiation of `parse_stories_full_story` on `exLines`. -/
theorem parse_stories_full_story_witness :
    decodeLines exLines exEpisodes = true ∧
      parse_stories exLines false = some ((exEpisodes.map epTriplesFull).flatten) :=
  ⟨by decide, parse_stories_full_story exLines exEpisodes (by decide)⟩

/-- C3: with `only_supporting = True`, every triple `parse_stories` emits
carries as its story, for each supporting index `i` in the listed order,
the episode's sentence at line number `i`, instead of the full accumulated
story (under the well-formedness of the supporting fields captured by
`okScan`). -/
theorem parse_stories_only_supporting (lines : List Str)
    (episodes : List (List EpLine)) (hdec : decodeLines lines episodes = true)
    (hsup : (episodes.all (fun e => okScan true [] e)) = true) :
    parse_stories lines true = some ((episodes.map epTriplesSup).flatten) := by
  obtain ⟨fs, hfold⟩ := foldAll true episodes lines [] [] hdec hsup
  unfold parse_stories
  rw [hfold]
  simp only [Option.map_some', List.nil_append]
  rw [show emitFrom true [] = epTriplesSup from funext emitFrom_nil_sup]

/-- Closed instantiation of `parse_stories_only_supporting` on `exLines`. -/
theorem parse_stories_only_supporting_witness :
    decodeLines exLines exEpisodes = true ∧
      (exEpisodes.all (fun e => okScan true [] e)) = true ∧
      parse_stories exLines true = some ((exEpisodes.map epTriplesSup).flatten) :=
  ⟨by decide, by decide,
    parse_stories_only_supporting exLines exEpisodes (by decide) (by decide)⟩

lemma keepTriple_mapO (n : Nat) (hn : n ≠ 0) :
    ∀ data : List Triple,
      (mapO (keepTriple (some n)) data).map (fun opts => opts.filterMap id) =
        (mapO (fun t => (flatten t.1).map (fun f => (f, t.2.1, t.2.2))) data).map
          (fun l => l.filter (fun t => entryLen t.1 < n)) := by
  intro data
  induction data with
  | nil => rfl
  | cons t ds ih =>
    rcases hf : flatten t.1 with _ | f
    · have h1 : keepTriple (some n) t = none := by
        simp [keepTriple, hn, hf]
      simp [mapO, h1, hf]
    · have h1 : keepTriple (some n) t =
          some (if entryLen f < n then some (f, t.2.1, t.2.2) else none) := by
        by_cases hlt : entryLen f < n <;> simp [keepTriple, hn, hf, hlt]
      rcases hm1 : mapO (keepTriple (some n)) ds with _ | opts
      · rw [hm1] at ih
        rcases hm2 : mapO (fun t => (flatten t.1).map (fun f => (f, t.2.1, t.2.2)))
            ds with _ | l
        · simp [mapO, h1, hf, hm1, hm2]
        · rw [hm2] at ih; simp at ih
      · rw [hm1] at ih
        rcases hm2 : mapO (fun t => (flatten t.1).map (fun f => (f, t.2.1, t.2.2)))
            ds with _ | l
        · rw [hm2] at ih; simp at ih
        · rw [hm2] at ih
          simp only [Option.map_some', Option.some_inj] at ih
          by_cases hlt : entryLen f < n
          · simp [mapO, h1, hf, hm1, hm2, hlt, List.filterMap_cons,
              List.filter_cons, ih]
          · simp [mapO, h1, hf, hm1, hm2, hlt, List.filterMap_cons,
              List.filter_cons, ih]

lemma keepTriple_mapO_zero :
    ∀ data : List Triple,
      (mapO (keepTriple (some 0)) data).map (fun opts => opts.filterMap id) =
        mapO (fun t => (flatten t.1).map (fun f => (f, t.2.1, t.2.2))) data := by
  intro data
  induction data with
  | nil => rfl
  | cons t ds ih =>
    rcases hf : flatten t.1 with _ | f
    · have h1 : keepTriple (some 0) t = none := by
        simp [keepTriple, hf]
      simp [mapO, h1, hf]
    · have h1 : keepTriple (some 0) t = some (some (f, t.2.1, t.2.2)) := by
        simp [keepTriple, hf]
      rcases hm1 : mapO (keepTriple (some 0)) ds with _ | opts
      · rw [hm1] at ih
        rcases hm2 : mapO (fun t => (flatten t.1).map (fun f => (f, t.2.1, t.2.2)))
            ds with _ | l
        · simp [mapO, h1, hf, hm1, hm2]
        · rw [hm2] at ih; simp at ih
      · rw [hm1] at ih
        rcases hm2 : mapO (fun t => (flatten t.1).map (fun f => (f, t.2.1, t.2.2)))
            ds with _ | l
        · rw [hm2] at ih; simp at ih
        · rw [hm2] at ih
          simp only [Option.map_some', Option.some_inj] at ih
          simp [mapO, h1, hf, hm1, hm2, List.filterMap_cons, ih]

/-- C9 (amended): with a truthy, i.e. nonzero, `max_length = n`,
`get_stories` keeps exactly the parsed triples whose flattened story has
strictly fewer than `n` tokens, so a story of exactly `n` tokens is
discarded; with `max_length = 0`, which is not `None` but is falsy in
Python, the source's `not max_length` guard keeps every triple. -/
theorem get_stories_max_length (lines : List Str) (os : Bool) (n : Nat)
    (data : List Triple) (hp : parse_stories lines os = some data) :
    (n ≠ 0 → get_stories lines os (some n) =
      (mapO (fun t => (flatten t.1).map (fun f => (f, t.2.1, t.2.2))) data).map
        (fun l => l.filter (fun t => entryLen t.1 < n))) ∧
    get_stories lines os (some 0) =
      mapO (fun t => (flatten t.1).map (fun f => (f, t.2.1, t.2.2))) data := by
  constructor
  · intro hn
    unfold get_stories
    rw [hp]
    rw [← keepTriple_mapO n hn data]
    rcases hcase : mapO (keepTriple (some n)) data with _ | opts <;> simp [hcase]
  · unfold get_stories
    rw [hp]
    rw [← keepTriple_mapO_zero data]
    rcases hcase : mapO (keepTriple (some 0)) data with _ | opts <;> simp [hcase]

/-- At `max_length = 0`, a non-`None` value, `get_stories` keeps a triple
whose flattened story does not have strictly fewer than `0` tokens, so the
strict-filter reading of the `max_length` parameter fails there. -/
theorem get_stories_max_length_zero_counterexample :
    get_stories exLines9 false (some 0) =
      some [(Entry.sent [str ("John"), str ("went"), str ("home"), str (".")],
             [str ("Where"), str ("is"), str ("John"), str ("?")],
             str ("home"))] ∧
    ¬ entryLen (Entry.sent [str ("John"), str ("went"), str ("home"),
      str (".")]) < 0 :=
  ⟨by decide, by decide⟩

/-- Closed instantiation of `get_stories_max_length`: the four-token story of
`exLines9` is discarded at `max_length = 4` and kept at `max_length = 0`. -/
theorem get_stories_max_length_witness :
    parse_stories exLines9 false = some exData9 ∧ (4 : Nat) ≠ 0 ∧
      get_stories exLines9 false (some 4) =
        (mapO (fun t => (flatten t.1).map (fun f => (f, t.2.1, t.2.2))) exData9).map
          (fun l => l.filter (fun t => entryLen t.1 < 4)) ∧
      get_stories exLines9 false (some 0) =
        mapO (fun t => (flatten t.1).map (fun f => (f, t.2.1, t.2.2))) exData9 ∧
      get_stories exLines9 false (some 4) = some [] :=
  ⟨by decide, by decide,
    (get_stories_max_length exLines9 false 4 exData9 (by decide)).1 (by decide),
    (get_stories_max_length exLines9 false 4 exData9 (by decide)).2,
    by decide⟩

/-- C10: an episode whose first line is a question gives `parse_stories` a
triple with an empty story, and `get_stories` then fails (the `reduce` in
`flatten` raises a `TypeError` on an empty sequence) instead of returning a
triple with an empty story. -/
theorem get_stories_empty_story_raises :
    parse_stories [str ("1 Where is John?\tbathroom\t1")] false =
      some [([], [str ("Where"), str ("is"), str ("John"), str ("?")],
             str ("bathroom"))] ∧
    get_stories [str ("1 Where is John?\tbathroom\t1")] false none = none :=
  ⟨by decide, by decide⟩

lemma padSeq_length (m : Nat) (s : List Nat) : (padSeq m s).length = m := by
  simp only [padSeq, List.length_append, List.length_replicate, List.length_drop]
  omega

lemma padSeq_eq (m : Nat) (s : List Nat) :
    padSeq m s = List.replicate (m - s.length) 0 ++ s.drop (s.length - m) := by
  simp only [padSeq, List.length_drop]
  have h : m - (s.length - (s.length - m)) = m - s.length := by omega
  rw [h]

lemma setRep_get_self :
    ∀ (n i : Nat), i < n →
      ((List.replicate n (0 : Nat)).set i 1).get? i = some 1 := by
  intro n
  induction n with
  | zero => intro i h; omega
  | succ n ih =>
    intro i h
    cases i with
    | zero => rfl
    | succ j =>
      simp only [List.replicate_succ, List.set_cons_succ, List.get?_cons_succ]
      exact ih j (by omega)

lemma get_replicate_lt :
    ∀ (n j : Nat), j < n → (List.replicate n (0 : Nat)).get? j = some 0 := by
  intro n
  induction n with
  | zero => intro j h; omega
  | succ n ih =>
    intro j h
    cases j with
    | zero => rfl
    | succ k =>
      simp only [List.replicate_succ, List.get?_cons_succ]
      exact ih k (by omega)

lemma setRep_get_other :
    ∀ (n i j : Nat), j < n → j ≠ i →
      ((List.replicate n (0 : Nat)).set i 1).get? j = some 0 := by
  intro n
  induction n with
  | zero => intro i j h _; omega
  | succ n ih =>
    intro i j h hne
    cases i with
    | zero =>
      cases j with
      | zero => exact absurd rfl hne
      | succ k =>
        simp only [List.replicate_succ, List.set_cons_zero, List.get?_cons_succ]
        exact get_replicate_lt n k (by omega)
    | succ i2 =>
      cases j with
      | zero => rfl
      | succ k =>
        simp only [List.replicate_succ, List.set_cons_succ, List.get?_cons_succ]
        exact ih i2 k (by omega) (by omega)

lemma setRep_sum :
    ∀ (n i : Nat), i < n →
      ((List.replicate n (0 : Nat)).set i 1).sum = 1 := by
  intro n
  induction n with
  | zero => intro i h; omega
  | succ n ih =>
    intro i h
    cases i with
    | zero =>
      simp only [List.replicate_succ, List.set_cons_zero, List.sum_cons]
      simp [List.sum_replicate]
    | succ j =>
      simp only [List.replicate_succ, List.set_cons_succ, List.sum_cons]
      rw [ih j (by omega)]

/-- C4: every story row and query row of `vectorize_stories` has length
exactly the configured maximum, and each row is the triple's token-index
sequence truncated to its last `maxlen` entries and left-padded with the
reserved zero index, so the indices occupy the rightmost positions. -/
theorem vectorize_stories_pad (data : List (List Str × List Str × Str))
    (word_idx : List (Str × Nat)) (sm qm : Nat)
    (X Xq Y : List (List Nat))
    (h : vectorize_stories data word_idx sm qm = some (X, Xq, Y)) :
    ((∀ r ∈ X, r.length = sm) ∧ (∀ r ∈ Xq, r.length = qm)) ∧
    X.length = data.length ∧ Xq.length = data.length ∧
    ∀ i t, data.get? i = some t →
      ∃ x xq, mapO (alookup word_idx) t.1 = some x ∧
        mapO (alookup word_idx) t.2.1 = some xq ∧
        X.get? i = some (List.replicate (sm - x.length) 0 ++
          x.drop (x.length - sm)) ∧
        Xq.get? i = some (List.replicate (qm - xq.length) 0 ++
          xq.drop (xq.length - qm)) := by
  unfold vectorize_stories at h
  rcases hrows : mapO (fun t => do
      let x ← mapO (alookup word_idx) t.1
      let xq ← mapO (alookup word_idx) t.2.1
      let ai ← alookup word_idx t.2.2
      let y ← oneHot (word_idx.length + 1) ai
      pure (x, xq, y)) data with _ | rows
  · rw [hrows] at h
    simp at h
  · rw [hrows] at h
    simp only [Option.bind_eq_bind, Option.some_bind, Option.pure_def,
      Option.some_inj] at h
    cases h
    obtain ⟨hlen, hget⟩ := mapO_get _ hrows
    refine ⟨⟨?_, ?_⟩, ?_, ?_, ?_⟩
    · intro r hr
      simp only [pad_sequences, List.mem_map] at hr
      obtain ⟨v, -, hv⟩ := hr
      rw [← hv]
      exact padSeq_length sm v
    · intro r hr
      simp only [pad_sequences, List.mem_map] at hr
      obtain ⟨v, -, hv⟩ := hr
      rw [← hv]
      exact padSeq_length qm v
    · simp [pad_sequences, hlen]
    · simp [pad_sequences, hlen]
    · intro i t ht
      obtain ⟨row, hrowt, hrowsi⟩ := hget i t ht
      simp only [Option.bind_eq_bind, Option.bind_eq_some, Option.pure_def,
        Option.some_inj] at hrowt
      obtain ⟨x, hx, xq, hxq, ai, hai, y, hy, hrow⟩ := hrowt
      refine ⟨x, xq, hx, hxq, ?_, ?_⟩
      · simp only [pad_sequences, List.get?_map, hrowsi, ← hrow,
          Option.map_some']
        rw [← padSeq_eq]
      · simp only [pad_sequences, List.get?_map, hrowsi, ← hrow,
          Option.map_some']
        rw [← padSeq_eq]

/-- Closed instantiation of `vectorize_stories_pad` on `exData45`. -/
theorem vectorize_stories_pad_witness :
    vectorize_stories exData45 exWordIdx 2 3 =
      some ([[0, 1]], [[0, 0, 2]], [[0, 1, 0]]) ∧
    (((∀ r ∈ [[0, 1]], List.length r = 2) ∧
        (∀ r ∈ [[0, 0, 2]], List.length r = 3)) ∧
      List.length [[0, 1]] = exData45.length ∧
      List.length [[0, 0, 2]] = exData45.length ∧
      ∀ i t, exData45.get? i = some t →
        ∃ x xq, mapO (alookup exWordIdx) t.1 = some x ∧
          mapO (alookup exWordIdx) t.2.1 = some xq ∧
          List.get? [[0, 1]] i = some (List.replicate (2 - x.length) 0 ++
            x.drop (x.length - 2)) ∧
          List.get? [[0, 0, 2]] i = some (List.replicate (3 - xq.length) 0 ++
            xq.drop (xq.length - 3))) :=
  ⟨by decide,
    vectorize_stories_pad exData45 exWordIdx 2 3 [[0, 1]] [[0, 0, 2]] [[0, 1, 0]]
      (by decide)⟩

/-- C5: when every answer occurs in `word_idx` (so that vectorization
succeeds), every answer vector has length `len(word_idx) + 1`, is `1` at the
answer's vocabulary index, `0` everywhere else, and sums to exactly `1`. -/
theorem vectorize_stories_onehot (data : List (List Str × List Str × Str))
    (word_idx : List (Str × Nat)) (sm qm : Nat)
    (X Xq Y : List (List Nat))
    (h : vectorize_stories data word_idx sm qm = some (X, Xq, Y)) :
    Y.length = data.length ∧
    ∀ i t, data.get? i = some t →
      ∃ ai y, alookup word_idx t.2.2 = some ai ∧ Y.get? i = some y ∧
        y.length = word_idx.length + 1 ∧ y.get? ai = some 1 ∧
        (∀ j, j < y.length → j ≠ ai → y.get? j = some 0) ∧ y.sum = 1 := by
  unfold vectorize_stories at h
  rcases hrows : mapO (fun t => do
      let x ← mapO (alookup word_idx) t.1
      let xq ← mapO (alookup word_idx) t.2.1
      let ai ← alookup word_idx t.2.2
      let y ← oneHot (word_idx.length + 1) ai
      pure (x, xq, y)) data with _ | rows
  · rw [hrows] at h
    simp at h
  · rw [hrows] at h
    simp only [Option.bind_eq_bind, Option.some_bind, Option.pure_def,
      Option.some_inj] at h
    cases h
    obtain ⟨hlen, hget⟩ := mapO_get _ hrows
    constructor
    · simp [hlen]
    · intro i t ht
      obtain ⟨row, hrowt, hrowsi⟩ := hget i t ht
      simp only [Option.bind_eq_bind, Option.bind_eq_some, Option.pure_def,
        Option.some_inj] at hrowt
      obtain ⟨x, hx, xq, hxq, ai, hai, y, hy, hrow⟩ := hrowt
      have hailt : ai < word_idx.length + 1 := by
        by_contra hge
        simp [oneHot, hge] at hy
      have hyval : y = (List.replicate (word_idx.length + 1) 0).set ai 1 := by
        simp [oneHot, hailt] at hy
        exact hy.symm
      refine ⟨ai, y, hai, ?_, ?_, ?_, ?_, ?_⟩
      · simp only [List.get?_map, hrowsi, ← hrow, Option.map_some']
      · rw [hyval]
        simp
      · rw [hyval]
        exact setRep_get_self (word_idx.length + 1) ai hailt
      · intro j hj hne
        rw [hyval]
        rw [hyval] at hj
        simp only [List.length_set, List.length_replicate] at hj
        exact setRep_get_other (word_idx.length + 1) ai j hj hne
      · rw [hyval]
        exact setRep_sum (word_idx.length + 1) ai hailt

/-- Closed instantiation of `vectorize_stories_onehot` on `exData45`. -/
theorem vectorize_stories_onehot_witness :
    vectorize_stories exData45 exWordIdx 2 3 =
      some ([[0, 1]], [[0, 0, 2]], [[0, 1, 0]]) ∧
    (List.length [[0, 1, 0]] = exData45.length ∧
      ∀ i t, exData45.get? i = some t →
        ∃ ai y, alookup exWordIdx t.2.2 = some ai ∧
          List.get? [[0, 1, 0]] i = some y ∧
          y.length = exWordIdx.length + 1 ∧ y.get? ai = some 1 ∧
          (∀ j, j < y.length → j ≠ ai → y.get? j = some 0) ∧ y.sum = 1) :=
  ⟨by decide,
    vectorize_stories_onehot exData45 exWordIdx 2 3 [[0, 1]] [[0, 0, 2]]
      [[0, 1, 0]] (by decide)⟩

/-- C6: for any nonempty corpus, `vocab` is the sorted list of the distinct
tokens appearing across stories, queries and answers, and `word_idx` maps
the `i`-th vocabulary word (0-based) to `i + 1`: its keys are exactly the
vocabulary, its values are exactly `1..len(vocab)`, and index `0` is
assigned to no token. -/
theorem vocab_word_idx_spec (data : List (List Str × List Str × Str))
    (vocab : List Str) (h : vocabOf data = some vocab) :
    (∀ t, t ∈ vocab ↔ t ∈ allToks data) ∧
    vocab.Nodup ∧
    vocab.Sorted (fun a b : Str => a ≤ b) ∧
    (wordIdxOf vocab).map Prod.fst = vocab ∧
    (wordIdxOf vocab).map Prod.snd = (List.range vocab.length).map (fun i => i + 1) ∧
    (∀ p ∈ wordIdxOf vocab, 1 ≤ p.2 ∧ p.2 ≤ vocab.length) ∧
    (∀ p ∈ wordIdxOf vocab, p.2 ≠ 0) := by
  unfold vocabOf at h
  by_cases hd : data.isEmpty
  · rw [if_pos hd] at h
    simp at h
  · rw [if_neg hd, Option.some_inj] at h
    have hperm : List.Perm
        (List.insertionSort (fun a b : Str => a ≤ b) (allToks data).dedup)
        ((allToks data).dedup) := List.perm_insertionSort _ _
    have hkeys : (wordIdxOf vocab).map Prod.fst = vocab := by
      simp only [wordIdxOf, List.map_map]
      have : (Prod.fst ∘ fun p : Nat × Str => (p.2, p.1 + 1)) = Prod.snd := rfl
      rw [this, List.enum_eq_enumFrom, List.enumFrom_map_snd]
    have hvals : (wordIdxOf vocab).map Prod.snd =
        (List.range vocab.length).map (fun i => i + 1) := by
      simp only [wordIdxOf, List.map_map]
      have h2 : (Prod.snd ∘ fun p : Nat × Str => (p.2, p.1 + 1)) =
          (fun i => i + 1) ∘ Prod.fst := rfl
      rw [h2, ← List.map_map, List.enum_eq_enumFrom, List.enumFrom_map_fst,
        List.range_eq_range']
    have hbound : ∀ p ∈ wordIdxOf vocab, 1 ≤ p.2 ∧ p.2 ≤ vocab.length := by
      intro p hp
      have hmem : p.2 ∈ (wordIdxOf vocab).map Prod.snd :=
        List.mem_map_of_mem Prod.snd hp
      rw [hvals] at hmem
      obtain ⟨i, hi, hpi⟩ := List.mem_map.1 hmem
      have := List.mem_range.1 hi
      omega
    refine ⟨?_, ?_, ?_, hkeys, hvals, hbound, ?_⟩
    · intro t
      rw [← h, hperm.mem_iff, List.mem_dedup]
    · rw [← h]
      exact hperm.nodup_iff.2 ((allToks data).nodup_dedup)
    · rw [← h]
      exact List.sorted_insertionSort _ _
    · intro p hp
      have := (hbound p hp).1
      omega

/-- Closed instantiation of `vocab_word_idx_spec` on `exData6`. -/
theorem vocab_word_idx_spec_witness :
    vocabOf exData6 = some [str ("a"), str ("b")] ∧
    ((∀ t, t ∈ [str ("a"), str ("b")] ↔ t ∈ allToks exData6) ∧
      List.Nodup [str ("a"), str ("b")] ∧
      List.Sorted (fun a b : Str => a ≤ b) [str ("a"), str ("b")] ∧
      (wordIdxOf [str ("a"), str ("b")]).map Prod.fst = [str ("a"), str ("b")] ∧
      (wordIdxOf [str ("a"), str ("b")]).map Prod.snd =
        (List.range (List.length [str ("a"), str ("b")])).map (fun i => i + 1) ∧
      (∀ p ∈ wordIdxOf [str ("a"), str ("b")],
        1 ≤ p.2 ∧ p.2 ≤ List.length [str ("a"), str ("b")]) ∧
      (∀ p ∈ wordIdxOf [str ("a"), str ("b")], p.2 ≠ 0)) :=
  ⟨by decide, vocab_word_idx_spec exData6 [str ("a"), str ("b")] (by decide)⟩

/-- C7: on download failure the guard prints exactly the manual-recovery
instruction (the `wget` and `mv` commands) and re-raises the original
exception, terminating the run; on success nothing is printed and no other
recovery is attempted. -/
theorem download_guard_spec :
    (∀ (ε α : Type) (e : ε),
      downloadGuard (Except.error e : Except ε α) = ([downloadMsg], Except.error e)) ∧
    (∀ (ε α : Type) (a : α),
      downloadGuard (Except.ok a : Except ε α) = ([], Except.ok a)) :=
  ⟨fun _ _ _ => rfl, fun _ _ _ => rfl⟩

/-- C8: if the story or the query handed to the interactive inference
function tokenizes to at least one token missing from `word_idx`, the
vectorizing step of `ask_qa` raises the unhandled `KeyError` (returns
`none`) instead of producing an answer. -/
theorem ask_qa_oov (word_idx : List (Str × Nat)) (sm qm : Nat)
    (story query : Str)
    (h : (∃ t ∈ tokenize story, alookup word_idx t = none) ∨
         (∃ t ∈ tokenize query, alookup word_idx t = none)) :
    ask_qa_vec word_idx sm qm story query = none := by
  unfold ask_qa_vec
  rcases h with ⟨t, ht, hn⟩ | ⟨t, ht, hn⟩
  · rw [mapO_none _ ht hn]
    rfl
  · rcases hms : mapO (alookup word_idx) (tokenize story) with _ | xs
    · rfl
    · simp only [Option.bind_eq_bind, Option.some_bind]
      rw [mapO_none _ ht hn]
      rfl

/-- Closed instantiation of `ask_qa_oov`: the token `John` is missing from
the one-entry vocabulary `exWordIdxSmall`. -/
theorem ask_qa_oov_witness :
    ((∃ t ∈ tokenize (str ("John")), alookup exWordIdxSmall t = none) ∨
      (∃ t ∈ tokenize (str ("Where")), alookup exWordIdxSmall t = none)) ∧
    ask_qa_vec exWordIdxSmall 3 3 (str ("John")) (str ("Where")) = none :=
  ⟨by decide,
    ask_qa_oov exWordIdxSmall 3 3 (str ("John")) (str ("Where")) (by decide)⟩
